import Mathlib

/-!
Verification of the butterfly stateful packet fuzzing core against its
natural-language specification.  The definitions below are shallow embeddings
of the Rust source: `src/src/observer.rs` (state graph / observer),
`src/src/scheduler.rs` (mutation scheduler), `src/src/mutators/*.rs`
(sequence-level and packet-level mutators) and
`src/examples/fizzle_ftp_fuzzer/src/{proto,ftp}.rs` (wire serialization and
the FTP packet type).  Rust machine integers are embedded as `Nat` with
explicit `% 2^w` where truncation matters; fallible operations (slice index
panics, `NonZero::new(..).unwrap()`) are embedded as `Option`, `none`
modelling a panic.
-/

/-- `MutationResult` from libafl: a mutator reports whether it changed the
input (`Mutated`) or left it alone (`Skipped`). -/
inductive MutationResult where
  | mutated
  | skipped
deriving DecidableEq, Repr

/-- `Result<MutationResult, Error>`: a sub-mutator invocation either returns a
`MutationResult` or an engine error. -/
inductive MutOutcome where
  | ok (r : MutationResult)
  | err
deriving DecidableEq, Repr

/-! ### Byte-buffer primitives

`sliceAssign v a b src` embeds Rust `v[a..b].copy_from_slice(&src)`:
it panics (here: `none`) unless `a ≤ b ≤ v.len()` and `src.len() = b - a`. -/

/-- Embedding of `v[a..b].copy_from_slice(&src)`; `none` models the panic on an
out-of-range slice or a length mismatch between destination and source. -/
def sliceAssign (v : List Nat) (a b : Nat) (src : List Nat) : Option (List Nat) :=
  if a ≤ b ∧ b ≤ v.length ∧ src.length = b - a then
    some (v.take a ++ src ++ v.drop b)
  else
    none

/-- Embedding of `Vec::resize(n, x)`. -/
def listResize (v : List Nat) (n : Nat) (x : Nat) : List Nat :=
  if n ≤ v.length then v.take n else v ++ List.replicate (n - v.length) x

/-- Embedding of `v.copy_within(a..b, d)`; `none` models the panic on an
out-of-range source or destination range. -/
def copyWithin (v : List Nat) (a b d : Nat) : Option (List Nat) :=
  if a ≤ b ∧ b ≤ v.length ∧ d + (b - a) ≤ v.length then
    sliceAssign v d (d + (b - a)) ((v.take b).drop a)
  else
    none

theorem sliceAssign_length {v : List Nat} {a b : Nat} {src w : List Nat}
    (h : sliceAssign v a b src = some w) : w.length = v.length := by
  unfold sliceAssign at h
  split at h
  · rename_i hc
    obtain ⟨hab, hbv, hsrc⟩ := hc
    cases h
    simp [List.length_append, List.length_take, List.length_drop, hsrc]
    omega
  · exact absurd h (by simp)

theorem sliceAssign_isSome {v : List Nat} {a b : Nat} {src : List Nat}
    (hab : a ≤ b) (hbv : b ≤ v.length) (hsrc : src.length = b - a) :
    sliceAssign v a b src = some (v.take a ++ src ++ v.drop b) := by
  unfold sliceAssign
  simp [hab, hbv, hsrc]

theorem listResize_length (v : List Nat) (n x : Nat) :
    (listResize v n x).length = n := by
  unfold listResize
  split <;> simp [List.length_take, List.length_append, List.length_replicate] <;> omega

/-! ### State graph (`src/src/observer.rs`)

`StateGraph<PS>` keeps `nodes: HashMap<PS, u32>` with dense insertion-order
ids, `edges: HashSet<u64>` of packed transitions, `last_node: Option<u32>`
and `new_transitions: bool`.  The node map is embedded as the insertion-order
list of states: the id stored for a state is the node count at its insertion
time, truncated to `u32` by the `as u32` cast, i.e. `idxOf nodes s % 2^32`. -/

/-- `fn pack_transition(from: u32, to: u32) -> u64 { (from as u64) << 32 | (to as u64) }` -/
def pack_transition (f t : Nat) : Nat :=
  (f <<< 32) ||| t

/-- `fn unpack_transition(transition: u64) -> (u32, u32)`:
`((transition >> 32) as u32, transition as u32)`. -/
def unpack_transition (e : Nat) : Nat × Nat :=
  ((e >>> 32) % 2 ^ 32, e % 2 ^ 32)

theorem pack_transition_eq_add {f t : Nat} (ht : t < 2 ^ 32) :
    pack_transition f t = f * 2 ^ 32 + t := by
  unfold pack_transition
  rw [Nat.shiftLeft_eq, Nat.mul_comm]
  exact (Nat.mul_add_lt_is_or ht f).symm

theorem unpack_pack_transition {f t : Nat} (hf : f < 2 ^ 32) (ht : t < 2 ^ 32) :
    unpack_transition (pack_transition f t) = (f, t) := by
  rw [pack_transition_eq_add ht]
  unfold unpack_transition
  rw [Nat.shiftRight_eq_div_pow]
  have h1 : (f * 2 ^ 32 + t) / 2 ^ 32 = f := by omega
  have h2 : (f * 2 ^ 32 + t) % 2 ^ 32 = t := by omega
  rw [h1, h2, Nat.mod_eq_of_lt hf]

theorem pack_transition_inj {f t f' t' : Nat} (hf : f < 2 ^ 32) (ht : t < 2 ^ 32)
    (hf' : f' < 2 ^ 32) (ht' : t' < 2 ^ 32)
    (h : pack_transition f t = pack_transition f' t') : f = f' ∧ t = t' := by
  have h1 := unpack_pack_transition hf ht
  have h2 := unpack_pack_transition hf' ht'
  rw [h, h2] at h1
  exact ⟨(Prod.mk.injEq .. ▸ h1).1.symm, (Prod.mk.injEq .. ▸ h1).2.symm⟩

/-- Index of the first occurrence of `s` in `l` (list length if absent);
for a state in the node map this is the id assigned at insertion time,
before the `u32` truncation. -/
def idxOf {PS : Type} [DecidableEq PS] : List PS → PS → Nat
  | [], _ => 0
  | x :: xs, s => if x = s then 0 else idxOf xs s + 1

theorem idxOf_lt_length {PS : Type} [DecidableEq PS] {l : List PS} {s : PS}
    (h : s ∈ l) : idxOf l s < l.length := by
  induction l with
  | nil => cases h
  | cons x xs ih =>
    unfold idxOf
    by_cases hx : x = s
    · simp [hx]
    · rcases List.mem_cons.mp h with h1 | h1
      · exact absurd h1.symm hx
      · simp [hx]
        exact ih h1

theorem idxOf_get {PS : Type} [DecidableEq PS] {l : List PS} {s : PS}
    (h : s ∈ l) : l.get ⟨idxOf l s, idxOf_lt_length h⟩ = s := by
  induction l with
  | nil => cases h
  | cons x xs ih =>
    by_cases hx : x = s
    · simp [idxOf, hx]
    · rcases List.mem_cons.mp h with h1 | h1
      · exact absurd h1.symm hx
      · simp [idxOf, hx]
        exact ih h1

theorem idxOf_inj {PS : Type} [DecidableEq PS] {l : List PS} {a b : PS}
    (ha : a ∈ l) (hb : b ∈ l) (h : idxOf l a = idxOf l b) : a = b := by
  have g1 := idxOf_get ha
  have g2 := idxOf_get hb
  rw [← g1, ← g2]
  congr 1
  exact Fin.ext h

theorem idxOf_append_of_mem {PS : Type} [DecidableEq PS] {l : List PS} (t : List PS)
    {s : PS} (h : s ∈ l) : idxOf (l ++ t) s = idxOf l s := by
  induction l with
  | nil => cases h
  | cons x xs ih =>
    by_cases hx : x = s
    · simp [idxOf, hx]
    · rcases List.mem_cons.mp h with h1 | h1
      · exact absurd h1.symm hx
      · simp [idxOf, hx, ih h1]

theorem idxOf_append_self {PS : Type} [DecidableEq PS] {l : List PS} {s : PS}
    (h : s ∉ l) : idxOf (l ++ [s]) s = l.length := by
  induction l with
  | nil => simp [idxOf]
  | cons x xs ih =>
    have hx : x ≠ s := fun he => h (he ▸ List.mem_cons_self x xs)
    simp [idxOf, hx]
    exact ih (fun hm => h (List.mem_cons_of_mem x hm))

/-- `StateGraph<PS>`: the node map as the insertion-ordered list of states,
the packed edge set, the per-run `last_node` and `new_transitions` flags. -/
structure StateGraph (PS : Type) where
  nodes : List PS
  edges : Finset Nat
  last_node : Option Nat
  new_transitions : Bool

/-- `StateGraph::new()` -/
def StateGraph.new (PS : Type) : StateGraph PS :=
  { nodes := [], edges := ∅, last_node := none, new_transitions := false }

/-- `StateGraph::reset()` -/
def StateGraph.reset {PS : Type} (g : StateGraph PS) : StateGraph PS :=
  { g with last_node := none, new_transitions := false }

/-- `StateGraph::add_node(state)`: return the stored id if present, otherwise
insert with id `nodes.len() as u32`.  The stored id of a state is its
insertion index truncated to 32 bits. -/
def StateGraph.add_node {PS : Type} [DecidableEq PS] (g : StateGraph PS) (s : PS) :
    StateGraph PS × Nat :=
  if s ∈ g.nodes then
    (g, idxOf g.nodes s % 2 ^ 32)
  else
    ({ g with nodes := g.nodes ++ [s] }, g.nodes.length % 2 ^ 32)

/-- `StateGraph::add_edge(id)`: when `last_node` is `Some(old)` and `old ≠ id`,
insert the packed transition, or-ing `new_transitions` with whether the set
grew; always set `last_node = Some(id)`. -/
def StateGraph.add_edge {PS : Type} (g : StateGraph PS) (id : Nat) : StateGraph PS :=
  match g.last_node with
  | some old =>
    if old ≠ id then
      { g with
        edges := insert (pack_transition old id) g.edges,
        new_transitions := g.new_transitions || decide (pack_transition old id ∉ g.edges),
        last_node := some id }
    else
      { g with last_node := some id }
  | none => { g with last_node := some id }

/-- `StateObserver::record(state)`: `add_node` then `add_edge`. -/
def StateGraph.record {PS : Type} [DecidableEq PS] (g : StateGraph PS) (s : PS) :
    StateGraph PS :=
  let p := g.add_node s
  p.1.add_edge p.2

/-- Recording a whole run of observed states in order. -/
def StateGraph.run {PS : Type} [DecidableEq PS] (g : StateGraph PS) (ss : List PS) :
    StateGraph PS :=
  ss.foldl StateGraph.record g

/-- The id under which a recorded state is stored in the node map. -/
def StateGraph.nodeId {PS : Type} [DecidableEq PS] (g : StateGraph PS) (s : PS) : Nat :=
  idxOf g.nodes s % 2 ^ 32

/-! ### Sequence-level mutators (`src/src/mutators/{reorder,delete,duplicate}.rs`)

An input is its ordered packet list (`Packets<P>.pkts`).  Each call to
`state.rand_mut().below(k)` is embedded as `r % k` for a caller-supplied draw
`r`; any value `< k` is reachable.  `NonZero::new(0).unwrap()` panics, which
is modelled by `none`. -/

/-- `PacketReorderMutator::mutate`: on `len ≥ 2` draw two indices and swap
the packets at them (`Skipped` when the draws coincide). -/
def reorderMutate {P : Type} (r1 r2 : Nat) (input : List P) : MutationResult × List P :=
  if h : input.length ≤ 1 then (.skipped, input)
  else
    let fr := r1 % input.length
    let toIdx := r2 % input.length
    if fr = toIdx then (.skipped, input)
    else
      let a := input.get ⟨fr, Nat.mod_lt _ (by omega)⟩
      let b := input.get ⟨toIdx, Nat.mod_lt _ (by omega)⟩
      (.mutated, (input.set fr b).set toIdx a)

/-- `PacketDeleteMutator::mutate` (the constructor stores
`max(1, min_packets)`): on `len > min_packets` remove the packet at a drawn
index. -/
def deleteMutate {P : Type} (minPackets0 r : Nat) (input : List P) :
    MutationResult × List P :=
  let minPackets := max 1 minPackets0
  if input.length ≤ minPackets then (.skipped, input)
  else (.mutated, input.eraseIdx (r % input.length))

/-- `PacketDuplicateMutator::mutate`.  When `len < max_packets` the code
samples `below(NonZero::new(len).unwrap())`, which panics (`none`) on an
empty input. -/
def duplicateMutate {P : Type} (maxPackets r1 r2 : Nat) (input : List P) :
    Option (MutationResult × List P) :=
  if maxPackets ≤ input.length then some (.skipped, input)
  else if h : input.length = 0 then none
  else
    let fr := r1 % input.length
    let toIdx := r2 % (input.length + 1)
    if fr = toIdx then some (.skipped, input)
    else some (.mutated,
      input.insertIdx toIdx (input.get ⟨fr, Nat.mod_lt _ (Nat.pos_of_ne_zero h)⟩))

/-! ### Packet-level mutators (`src/src/mutators/{crossover,splice}.rs`)

A per-packet capability (`mutate_crossover_insert`, `mutate_crossover_replace`
or `mutate_splice`) is a function from the chosen packet and the other packet
to a result and the possibly-updated chosen packet; `none` models a panic or
engine error inside the capability. -/

/-- `PacketCrossoverInsertMutator::mutate` and
`PacketCrossoverReplaceMutator::mutate`, whose bodies are identical except
for the capability they delegate to: on `len ≥ 2` draw two indices, skip if
they coincide, otherwise run `cap` on the packet at the first index with the
packet at the second index as `other` and store the result back. -/
def crossoverPairMutate {P : Type} (cap : P → P → Option (MutationResult × P))
    (r1 r2 : Nat) (input : List P) : Option (MutationResult × List P) :=
  if h : input.length ≤ 1 then some (.skipped, input)
  else
    let packet := r1 % input.length
    let other := r2 % input.length
    if packet = other then some (.skipped, input)
    else
      match cap (input.get ⟨packet, Nat.mod_lt _ (by omega)⟩)
        (input.get ⟨other, Nat.mod_lt _ (by omega)⟩) with
      | some (res, p2) => some (res, input.set packet p2)
      | none => none

/-- `PacketSpliceMutator::mutate` (the constructor stores
`max(1, min_packets)`): on `len > min_packets` draw `p < len - 1`, remove the
packet at `p + 1`, splice it into the packet at `p`; on `Skipped` reinsert the
removed packet at `p + 1`. -/
def spliceMutate {P : Type} (minPackets0 r : Nat)
    (cap : P → P → Option (MutationResult × P)) (input : List P) :
    Option (MutationResult × List P) :=
  let minPackets := max 1 minPackets0
  if input.length ≤ minPackets then some (.skipped, input)
  else
    let packet := r % (input.length - 1)
    match input.get? (packet + 1) with
    | none => none
    | some other =>
      let rest := input.eraseIdx (packet + 1)
      match rest.get? packet with
      | none => none
      | some selfP =>
        match cap selfP other with
        | none => none
        | some (res, selfP2) =>
          let rest2 := rest.set packet selfP2
          match res with
          | .skipped => some (.skipped, rest2.insertIdx (packet + 1) other)
          | .mutated => some (.mutated, rest2)

/-! ### Built-in byte-string packet capabilities (`BytesInput` impls)

`impl HasCrossoverInsertMutation for BytesInput` and friends; the byte buffer
is a `List Nat`, the random draws are the `r` parameters. -/

/-- `BytesInput::mutate_crossover_insert`: insert `len ∈ [1, other_len - from]`
bytes of `other` starting at `from` into `self` at `to`. -/
def bytesCrossoverInsert (r1 r2 r3 : Nat) (selfB other : List Nat) :
    Option (MutationResult × List Nat) :=
  if selfB.length = 0 ∨ other.length = 0 then some (.skipped, selfB)
  else
    let fr := r1 % other.length
    let toIdx := r2 % selfB.length
    let len := r3 % (other.length - fr) + 1
    let v1 := listResize selfB (selfB.length + len) 0
    match copyWithin v1 toIdx selfB.length (toIdx + len) with
    | none => none
    | some v2 =>
      match sliceAssign v2 toIdx (toIdx + len) ((other.take (fr + len)).drop fr) with
      | none => none
      | some v3 => some (.mutated, v3)

/-- `BytesInput::mutate_crossover_replace`: overwrite
`self[to..to+len]` with `other[from..from+len]`,
`len ∈ [1, min(other_len - from, self_len - to)]`. -/
def bytesCrossoverReplace (r1 r2 r3 : Nat) (selfB other : List Nat) :
    Option (MutationResult × List Nat) :=
  if selfB.length = 0 ∨ other.length = 0 then some (.skipped, selfB)
  else
    let fr := r1 % other.length
    let toIdx := r2 % selfB.length
    let len := 1 + r3 % (min (other.length - fr) (selfB.length - toIdx))
    match sliceAssign selfB toIdx (toIdx + len) ((other.take (fr + len)).drop fr) with
    | none => none
    | some v => some (.mutated, v)

/-- `BytesInput::mutate_splice`: replace the tail of `self` from `to` on with
the tail `other[from..]`, growing `self` when necessary. -/
def bytesSplice (r1 r2 : Nat) (selfB other : List Nat) :
    Option (MutationResult × List Nat) :=
  if selfB.length = 0 ∨ other.length = 0 then some (.skipped, selfB)
  else
    let toIdx := r1 % selfB.length
    let fr := r2 % other.length
    let len := other.length - fr
    let v1 := if selfB.length < toIdx + len then listResize selfB (toIdx + len) 0 else selfB
    match sliceAssign v1 toIdx (toIdx + len) ((other.take (fr + len)).drop fr) with
    | none => none
    | some v => some (.mutated, v)

/-! ### Mutation scheduler (`src/src/scheduler.rs`) -/

/-- `PacketMutationScheduler::iterations` is the constant 1. -/
def scheduler_iterations {I : Type} (_input : I) : Nat := 1

/-- `PacketMutationScheduler::scheduled_mutate`, instrumented with explicit
fuel (`none` models the retry loop never exiting, and the
`NonZero::new(mutations.len()).unwrap()` panic when the mutator tuple is
empty) and with the trace of sub-mutator invocations `(index, outcome)` the
loop makes.  `muts idx inp` embeds
`self.mutations.get_and_mutate(idx, state, input)`; `r k` is the k-th draw of
the random source, so each `schedule` call returns `r k % n` where `n` is
`mutations.len()`. -/
def scheduled_mutate {I : Type} (muts : Nat → I → MutOutcome × I) (n : Nat)
    (r : Nat → Nat) : Nat → Nat → I → Option (MutOutcome × I × List (Nat × MutOutcome))
  | 0, _, _ => none
  | fuel + 1, k, inp =>
    if n = 0 then none
    else
      let idx := r k % n
      match muts idx inp with
      | (.ok .skipped, inp2) =>
        match scheduled_mutate muts n r fuel (k + 1) inp2 with
        | none => none
        | some (res, inpF, tr) => some (res, inpF, (idx, MutOutcome.ok .skipped) :: tr)
      | (out, inp2) => some (out, inp2, [(idx, out)])

/-! ### FTP example protocol and wire serialization
(`src/examples/fizzle_ftp_fuzzer/src/{ftp,proto}.rs`)

Bytes are written with their ASCII codes (`USER ` = 85 83 69 82 32, `PASS ` =
80 65 83 83 32, `PASV` = 80 65 83 86, `TYPE ` = 84 89 80 69 32, `LIST` =
76 73 83 84, `CWD ` = 67 87 68 32, `QUIT` = 81 85 73 84, CRLF = 13 10). -/

/-- The `FtpProtocol` packet enum. -/
inductive FtpProtocol where
  | USER (name : List Nat)
  | PASS (password : List Nat)
  | PASV
  | TYPE (arg1 arg2 : Nat)
  | LIST (dir : Option (List Nat))
  | CWD (dir : List Nat)
  | QUIT
deriving DecidableEq, Repr

/-- `FtpProtocol::to_bytes_extend`: the bytes one packet appends to the
output buffer. -/
def FtpProtocol.to_bytes_extend : FtpProtocol → List Nat
  | .USER n => [85, 83, 69, 82, 32] ++ n ++ [13, 10]
  | .PASS p => [80, 65, 83, 83, 32] ++ p ++ [13, 10]
  | .PASV => [80, 65, 83, 86, 13, 10]
  | .TYPE a b => [84, 89, 80, 69, 32] ++ [a, b] ++ [13, 10]
  | .LIST dir =>
    [76, 73, 83, 84] ++ (match dir with | some d => 32 :: d | none => []) ++ [13, 10]
  | .CWD d => [67, 87, 68, 32] ++ d ++ [13, 10]
  | .QUIT => [81, 85, 73, 84, 13, 10]

/-- `u32::to_be_bytes` (big-endian, 4 bytes). -/
def u32_be (n : Nat) : List Nat :=
  [n / 2 ^ 24 % 256, n / 2 ^ 16 % 256, n / 2 ^ 8 % 256, n % 256]

/-- `usize::to_be_bytes` on the 64-bit targets this fuzzer runs on
(big-endian, 8 bytes). -/
def usize_be (n : Nat) : List Nat :=
  [n / 2 ^ 56 % 256, n / 2 ^ 48 % 256, n / 2 ^ 40 % 256, n / 2 ^ 32 % 256,
   n / 2 ^ 24 % 256, n / 2 ^ 16 % 256, n / 2 ^ 8 % 256, n % 256]

/-- `Packets::to_bytes`: write `(pkts.len() as u32).to_be_bytes()`, then per
packet a four-byte placeholder, the packet bytes, and finally backfill the
placeholder with `len.to_be_bytes()` where `len: usize` — eight bytes copied
into the four-byte slot, so the `copy_from_slice` panics (`none`) whenever
there is at least one packet. -/
def Packets.to_bytes (pkts : List FtpProtocol) : Option (List Nat) :=
  pkts.foldl
    (fun acc pkt =>
      match acc with
      | none => none
      | some v =>
        let len_field_start := v.length
        let v1 := v ++ u32_be 0 ++ pkt.to_bytes_extend
        let len := v1.length - (len_field_start + 4)
        sliceAssign v1 len_field_start (len_field_start + 4) (usize_be len))
    (some (u32_be (pkts.length % 2 ^ 32)))

/-- The §3 wire format as the spec words it — a four-byte big-endian packet
count, then per packet a four-byte big-endian length field and that packet's
protocol-encoded bytes.  This is the spec-side serialization that
`Packets.to_bytes` is compared against (the length casts to `u32` mirror the
spec's unsigned 32-bit length fields). -/
def wireFormatSpec (pkts : List FtpProtocol) : List Nat :=
  u32_be (pkts.length % 2 ^ 32) ++
    (pkts.map
      (fun pkt => u32_be (pkt.to_bytes_extend.length % 2 ^ 32) ++ pkt.to_bytes_extend)).flatten

/-- One lowercase hexadecimal digit character. -/
def hexDigitChar (n : Nat) : Char :=
  if n < 10 then Char.ofNat (48 + n) else Char.ofNat (87 + n)

/-- `Packets::generate_name`: `format!("{:016x}", generic_hash_std(self))` —
the 64-bit structural hash of the input rendered as 16 zero-padded lowercase
hex digits.  The external hash function `generic_hash_std` (from
libafl_bolts, outside this repository) is the `hash` parameter; its `u64`
return type is the `% 2^64`. -/
def generate_name (hash : List FtpProtocol → Nat) (pkts : List FtpProtocol) : List Char :=
  (List.range 16).map (fun i => hexDigitChar (hash pkts % 2 ^ 64 / 16 ^ (15 - i) % 16))

/-! ### Shared list lemmas -/

theorem list_set_getElem_self {α : Type} (l : List α) (i : Nat) (h : i < l.length) :
    l.set i l[i] = l := by
  apply List.ext_getElem
  · simp
  · intro j hj hj2
    simp [List.getElem_set]
    intro he
    subst he
    rfl

theorem insertIdx_eraseIdx_self {α : Type} :
    ∀ (l : List α) (i : Nat) (h : i < l.length),
      (l.eraseIdx i).insertIdx i (l.get ⟨i, h⟩) = l := by
  intro l
  induction l with
  | nil => intro i h; simp at h
  | cons a t ih =>
    intro i h
    cases i with
    | zero => simp [List.eraseIdx_cons_zero]
    | succ j =>
      simp only [List.eraseIdx_cons_succ, List.insertIdx_succ_cons, List.get_eq_getElem,
        List.getElem_cons_succ]
      have := ih j (by simpa using Nat.lt_of_succ_lt_succ h)
      simp only [List.get_eq_getElem] at this
      rw [this]

/-! ### The serialization claims -/

/-- The S6 example input `[USER "a", PASV, QUIT]` (`"a"` = byte 97). -/
def ftpExampleS6 : List FtpProtocol :=
  [FtpProtocol.USER [97], FtpProtocol.PASV, FtpProtocol.QUIT]

/-- C1: the claim states that `Packets::to_bytes` produces the 4-byte
big-endian framed wire form, and in particular that the FTP input
`[USER "a", PASV, QUIT]` serializes to
`0x00000003 | 0x00000008 "USER a\r\n" | 0x00000006 "PASV\r\n" |
0x00000006 "QUIT\r\n"`.  The code instead computes the backfilled length as a
`usize` and copies its eight big-endian bytes into the four-byte length slot,
so `copy_from_slice` panics on every input with at least one packet: on the
S6 example `Packets.to_bytes` is `none` (a panic) while the wire form the
claim specifies is exactly the expected byte string. -/
theorem to_bytes_panics_on_ftp_example :
    Packets.to_bytes ftpExampleS6 = none ∧
      wireFormatSpec ftpExampleS6 =
        [0, 0, 0, 3] ++
          ([0, 0, 0, 8] ++ [85, 83, 69, 82, 32, 97, 13, 10]) ++
            ([0, 0, 0, 6] ++ [80, 65, 83, 86, 13, 10]) ++
              ([0, 0, 0, 6] ++ [81, 85, 73, 84, 13, 10]) ∧
      Packets.to_bytes [] = some [0, 0, 0, 0] := by
  refine ⟨by decide, by decide, by decide⟩

/-- C3: the claim states that every mutator returns `Ok(Mutated)` or
`Ok(Skipped)` on every input, including the empty packet sequence, and never
panics on structural impossibility.  All mutators but one do return
`Skipped` on their structurally impossible inputs (first conjuncts), but
`PacketDuplicateMutator::mutate` on an empty input with `max_packets > 0`
passes the `len >= max_packets` guard and then evaluates
`NonZero::new(input.len()).unwrap()` with `len = 0`, which panics (`none`):
the empty sequence under `PacketDuplicateMutator::new(16)` refutes the
claim. -/
theorem duplicate_mutator_panics_on_empty :
    duplicateMutate 16 0 0 ([] : List Nat) = none ∧
      reorderMutate 0 0 ([] : List Nat) = (.skipped, []) ∧
      reorderMutate 5 5 [1, 2] = (.skipped, [1, 2]) ∧
      deleteMutate 1 0 ([] : List Nat) = (.skipped, []) ∧
      deleteMutate 1 0 [7] = (.skipped, [7]) ∧
      duplicateMutate 0 0 0 ([] : List Nat) = some (.skipped, []) ∧
      crossoverPairMutate (bytesCrossoverInsert 0 0 0) 0 0 [] = some (.skipped, []) ∧
      crossoverPairMutate (bytesCrossoverReplace 0 0 0) 0 0 [[1]] = some (.skipped, [[1]]) ∧
      crossoverPairMutate (bytesCrossoverInsert 0 0 0) 1 1 [[1], [2]] =
        some (.skipped, [[1], [2]]) ∧
      spliceMutate 1 0 (bytesSplice 0 0) [] = some (.skipped, []) ∧
      bytesCrossoverInsert 0 0 0 [] [1] = some (.skipped, []) ∧
      bytesCrossoverReplace 0 0 0 [1] [] = some (.skipped, [1]) ∧
      bytesSplice 0 0 [] [] = some (.skipped, []) := by
  refine ⟨by decide, by decide, by decide, by decide, by decide, by decide, by decide,
    by decide, by decide, by decide, by decide, by decide, by decide⟩

/-! ### Graph invariants (C4, C5) -/

/-- Graph states reachable by any sequence of the `StateGraph` operations;
`add_edge`'s argument is typed `u32` in the source, hence the `id < 2^32`
side condition. -/
inductive StateGraph.Reachable {PS : Type} [DecidableEq PS] : StateGraph PS → Prop where
  | new : Reachable (StateGraph.new PS)
  | add_node (g : StateGraph PS) (s : PS) : Reachable g → Reachable (g.add_node s).1
  | add_edge (g : StateGraph PS) (id : Nat) :
      id < 2 ^ 32 → Reachable g → Reachable (g.add_edge id)
  | record (g : StateGraph PS) (s : PS) : Reachable g → Reachable (g.record s)
  | reset (g : StateGraph PS) : Reachable g → Reachable g.reset

/-- The inductive invariant behind C4: `last_node` holds a `u32` and every
edge unpacks to a pair of distinct `u32` endpoints. -/
def StateGraph.EdgeInv {PS : Type} (g : StateGraph PS) : Prop :=
  (∀ k, g.last_node = some k → k < 2 ^ 32) ∧
    ∀ e ∈ g.edges,
      (unpack_transition e).1 ≠ (unpack_transition e).2 ∧
        (unpack_transition e).1 < 2 ^ 32 ∧ (unpack_transition e).2 < 2 ^ 32

theorem add_node_fst {PS : Type} [DecidableEq PS] (g : StateGraph PS) (s : PS) :
    (g.add_node s).1.edges = g.edges ∧ (g.add_node s).1.last_node = g.last_node ∧
      (g.add_node s).1.new_transitions = g.new_transitions := by
  unfold StateGraph.add_node
  split <;> exact ⟨rfl, rfl, rfl⟩

theorem add_node_snd_lt {PS : Type} [DecidableEq PS] (g : StateGraph PS) (s : PS) :
    (g.add_node s).2 < 2 ^ 32 := by
  unfold StateGraph.add_node
  split <;> exact Nat.mod_lt _ (by norm_num)

theorem add_edge_edgeInv {PS : Type} {g : StateGraph PS} {id : Nat}
    (hinv : g.EdgeInv) (hid : id < 2 ^ 32) : (g.add_edge id).EdgeInv := by
  obtain ⟨hlast, hedges⟩ := hinv
  unfold StateGraph.add_edge
  match hl : g.last_node with
  | none => exact ⟨fun k hk => by cases hk; exact hid, hedges⟩
  | some old =>
    have hold : old < 2 ^ 32 := hlast old hl
    by_cases hne : old ≠ id
    · simp only [hl, if_pos hne]
      refine ⟨fun k hk => by cases hk; exact hid, ?_⟩
      intro e he
      rcases Finset.mem_insert.mp he with he1 | he1
      · subst he1
        rw [unpack_pack_transition hold hid]
        exact ⟨hne, hold, hid⟩
      · exact hedges e he1
    · simp only [hl, if_neg hne]
      exact ⟨fun k hk => by cases hk; exact hid, hedges⟩

theorem add_node_edgeInv {PS : Type} [DecidableEq PS] {g : StateGraph PS} (s : PS)
    (hinv : g.EdgeInv) : (g.add_node s).1.EdgeInv := by
  obtain ⟨he, hl, _⟩ := add_node_fst g s
  exact ⟨fun k hk => hinv.1 k (hl ▸ hk), fun e hm => hinv.2 e (he ▸ hm)⟩

theorem edgeInv_of_reachable {PS : Type} [DecidableEq PS] {g : StateGraph PS}
    (h : g.Reachable) : g.EdgeInv := by
  induction h with
  | new =>
    exact ⟨fun k hk => (nomatch hk), fun e he => (nomatch he)⟩
  | add_node g s _ ih =>
    exact add_node_edgeInv s ih
  | add_edge g id hid _ ih =>
    exact add_edge_edgeInv ih hid
  | record g s _ ih =>
    show ((g.add_node s).1.add_edge (g.add_node s).2).EdgeInv
    exact add_edge_edgeInv (add_node_edgeInv s ih) (add_node_snd_lt g s)
  | reset g _ ih =>
    exact ⟨fun k hk => (nomatch hk), ih.2⟩

/-- C4: after any sequence of `StateGraph` operations (`add_node`, `add_edge`,
`record`, `reset`) starting from `StateGraph::new`, every packed value in the
edge set unpacks to a pair `(from, to)` with `from ≠ to`: the edge set never
contains a self-loop. -/
theorem stategraph_no_self_loop {PS : Type} [DecidableEq PS] (g : StateGraph PS)
    (h : g.Reachable) :
    ∀ e ∈ g.edges, (unpack_transition e).1 ≠ (unpack_transition e).2 :=
  fun e he => ((edgeInv_of_reachable h).2 e he).1

/-- Witness for C4: a concrete reachable graph (record 220 then 331, reset,
then record 331 then 220) whose edge set is nonempty and self-loop-free. -/
theorem stategraph_no_self_loop_witness :
    ((((((StateGraph.new Nat).record 220).record 331).reset).record 331).record 220).edges ≠ ∅ ∧
      ∀ e ∈ ((((((StateGraph.new Nat).record 220).record 331).reset).record 331).record
        220).edges, (unpack_transition e).1 ≠ (unpack_transition e).2 := by
  refine ⟨by decide, stategraph_no_self_loop _ ?_⟩
  exact .record _ _ (.record _ _ (.reset _ (.record _ _ (.record _ _ .new))))

/-- C5: `StateGraph::reset` sets `last_node` to `None` and `new_transitions`
to `false` while leaving the node map and the edge set exactly unchanged, and
no operation (`record`, `add_node`, `add_edge`, `reset`) ever removes a node
or an edge, so both sets are monotonically non-decreasing. -/
theorem reset_frame_and_monotone {PS : Type} [DecidableEq PS] (g : StateGraph PS)
    (s : PS) (id : Nat) :
    g.reset.last_node = none ∧ g.reset.new_transitions = false ∧
      g.reset.nodes = g.nodes ∧ g.reset.edges = g.edges ∧
      (∀ x ∈ g.nodes, x ∈ (g.add_node s).1.nodes) ∧
      (g.add_node s).1.edges = g.edges ∧
      (g.add_edge id).nodes = g.nodes ∧
      (∀ e ∈ g.edges, e ∈ (g.add_edge id).edges) ∧
      (∀ x ∈ g.nodes, x ∈ (g.record s).nodes) ∧
      (∀ e ∈ g.edges, e ∈ (g.record s).edges) := by
  have han : ∀ x ∈ g.nodes, x ∈ (g.add_node s).1.nodes := by
    intro x hx
    unfold StateGraph.add_node
    split
    · exact hx
    · exact List.mem_append_left _ hx
  have hae_nodes : ∀ (g' : StateGraph PS) (i : Nat), (g'.add_edge i).nodes = g'.nodes := by
    intro g' i
    unfold StateGraph.add_edge
    match g'.last_node with
    | none => rfl
    | some old =>
      by_cases hne : old ≠ i
      · simp only [if_pos hne]
      · simp only [if_neg hne]
  have hae_edges : ∀ (g' : StateGraph PS) (i : Nat), ∀ e ∈ g'.edges, e ∈ (g'.add_edge i).edges := by
    intro g' i e he
    unfold StateGraph.add_edge
    match g'.last_node with
    | none => exact he
    | some old =>
      by_cases hne : old ≠ i
      · simp only [if_pos hne]
        exact Finset.mem_insert_of_mem he
      · simp only [if_neg hne]
        exact he
  refine ⟨rfl, rfl, rfl, rfl, han, (add_node_fst g s).1, hae_nodes g id, hae_edges g id, ?_, ?_⟩
  · intro x hx
    show x ∈ ((g.add_node s).1.add_edge (g.add_node s).2).nodes
    rw [hae_nodes (g.add_node s).1 (g.add_node s).2]
    exact han x hx
  · intro e he
    show e ∈ ((g.add_node s).1.add_edge (g.add_node s).2).edges
    exact hae_edges (g.add_node s).1 (g.add_node s).2 e ((add_node_fst g s).1.symm ▸ he)

/-- Witness for C5 at a concrete graph: nodes `[220, 331]`, one recorded
edge, `last_node = Some 1`, `new_transitions = true`. -/
theorem reset_frame_and_monotone_witness :
    (((StateGraph.new Nat).record 220).record 331).reset.last_node = none ∧
      (((StateGraph.new Nat).record 220).record 331).reset.new_transitions = false ∧
      (((StateGraph.new Nat).record 220).record 331).reset.nodes =
        (((StateGraph.new Nat).record 220).record 331).nodes ∧
      (((StateGraph.new Nat).record 220).record 331).reset.edges =
        (((StateGraph.new Nat).record 220).record 331).edges ∧
      (∀ x ∈ (((StateGraph.new Nat).record 220).record 331).nodes,
        x ∈ ((((StateGraph.new Nat).record 220).record 331).add_node 215).1.nodes) ∧
      ((((StateGraph.new Nat).record 220).record 331).add_node 215).1.edges =
        (((StateGraph.new Nat).record 220).record 331).edges ∧
      ((((StateGraph.new Nat).record 220).record 331).add_edge 0).nodes =
        (((StateGraph.new Nat).record 220).record 331).nodes ∧
      (∀ e ∈ (((StateGraph.new Nat).record 220).record 331).edges,
        e ∈ ((((StateGraph.new Nat).record 220).record 331).add_edge 0).edges) ∧
      (∀ x ∈ (((StateGraph.new Nat).record 220).record 331).nodes,
        x ∈ ((((StateGraph.new Nat).record 220).record 331).record 215).nodes) ∧
      (∀ e ∈ (((StateGraph.new Nat).record 220).record 331).edges,
        e ∈ ((((StateGraph.new Nat).record 220).record 331).record 215).edges) :=
  reset_frame_and_monotone (((StateGraph.new Nat).record 220).record 331) 215 0

/-! ### Splice mutator (C7) -/

/-- C7: `PacketSpliceMutator::mutate` returns `Skipped` with the input
unchanged whenever the packet count is `≤ max(1, min_packets)` or the chosen
packet's splice capability returns `Skipped` (the removed packet being
reinserted at `p + 1`), and whenever it returns `Mutated` the packet count
decreases by exactly one.  The capability hypothesis is the `Skipped`
contract of §7: a capability that skips leaves its packet unchanged. -/
theorem splice_mutator_spec {P : Type} (minPackets0 r : Nat)
    (cap : P → P → Option (MutationResult × P)) (input : List P)
    (hcap : ∀ p q p2, cap p q = some (MutationResult.skipped, p2) → p2 = p) :
    (input.length ≤ max 1 minPackets0 →
      spliceMutate minPackets0 r cap input = some (.skipped, input)) ∧
    (∀ out, spliceMutate minPackets0 r cap input = some (.skipped, out) → out = input) ∧
    (∀ out, spliceMutate minPackets0 r cap input = some (.mutated, out) →
      out.length + 1 = input.length) := by
  by_cases hle : input.length ≤ max 1 minPackets0
  · refine ⟨fun _ => ?_, fun out h => ?_, fun out h => ?_⟩
    · simp only [spliceMutate]
      rw [if_pos hle]
    · simp only [spliceMutate, if_pos hle, Option.some.injEq, Prod.mk.injEq, true_and] at h
      exact h.symm
    · simp only [spliceMutate, if_pos hle, Option.some.injEq, Prod.mk.injEq] at h
      exact absurd h.1 (by intro hcon; cases hcon)
  · have hmax : 1 ≤ max 1 minPackets0 := le_max_left 1 minPackets0
    have hL : 2 ≤ input.length := by omega
    have hpk : r % (input.length - 1) < input.length - 1 := Nat.mod_lt _ (by omega)
    have hp1 : r % (input.length - 1) + 1 < input.length := by omega
    have key : ∀ res out, spliceMutate minPackets0 r cap input = some (res, out) →
        (res = .skipped → out = input) ∧
        (res = .mutated → out.length + 1 = input.length) := by
      intro res out h
      have hrlen : (input.eraseIdx (r % (input.length - 1) + 1)).length = input.length - 1 := by
        rw [List.length_eraseIdx]
        simp [hp1]
      have hp2 : r % (input.length - 1) < (input.eraseIdx (r % (input.length - 1) + 1)).length := by
        omega
      simp only [spliceMutate] at h
      rw [if_neg hle] at h
      split at h
      · rename_i heq1
        rw [List.get?_eq_get hp1] at heq1
        cases heq1
      · rename_i other heq1
        rw [List.get?_eq_get hp1] at heq1
        have hother : other = input.get ⟨r % (input.length - 1) + 1, hp1⟩ :=
          (Option.some.injEq .. ▸ heq1).symm
        split at h
        · rename_i heq2
          rw [List.get?_eq_get hp2] at heq2
          cases heq2
        · rename_i selfP heq2
          rw [List.get?_eq_get hp2] at heq2
          have hselfP : selfP = (input.eraseIdx (r % (input.length - 1) + 1)).get
              ⟨r % (input.length - 1), hp2⟩ := (Option.some.injEq .. ▸ heq2).symm
          split at h
          · cases h
          · rename_i res2 p2 hcapeq
            split at h
            · obtain ⟨hres, hout⟩ := Prod.mk.injEq .. ▸ (Option.some.injEq .. ▸ h)
              have hp2eq := hcap _ _ _ hcapeq
              constructor
              · intro _
                rw [← hout, hother, hp2eq, hselfP]
                have hset := list_set_getElem_self
                  (input.eraseIdx (r % (input.length - 1) + 1)) (r % (input.length - 1)) hp2
                simp only [List.get_eq_getElem] at hset ⊢
                rw [hset]
                exact insertIdx_eraseIdx_self input (r % (input.length - 1) + 1) hp1
              · intro hcon
                rw [← hres] at hcon
                cases hcon
            · obtain ⟨hres, hout⟩ := Prod.mk.injEq .. ▸ (Option.some.injEq .. ▸ h)
              constructor
              · intro hcon
                rw [← hres] at hcon
                cases hcon
              · intro _
                rw [← hout, List.length_set]
                omega
    exact ⟨fun hle2 => absurd hle2 hle, fun out h => (key _ out h).1 rfl,
      fun out h => (key _ out h).2 rfl⟩

/-- Witness for C7 at `min_packets = 1`, a three-packet input and a skipping
capability. -/
theorem splice_mutator_spec_witness :
    (([1, 2, 3] : List Nat).length ≤ max 1 1 →
      spliceMutate 1 0 (fun p _ => some (.skipped, p)) [1, 2, 3] = some (.skipped, [1, 2, 3])) ∧
    (∀ out, spliceMutate 1 0 (fun p _ => some (.skipped, p)) [1, 2, 3] =
      some (.skipped, out) → out = [1, 2, 3]) ∧
    (∀ out, spliceMutate 1 0 (fun p _ => some (.skipped, p)) [1, 2, 3] =
      some (.mutated, out) → out.length + 1 = ([1, 2, 3] : List Nat).length) :=
  splice_mutator_spec 1 0 (fun p _ => some (.skipped, p)) [1, 2, 3]
    (fun _ _ _ h => (congrArg Prod.snd (Option.some.injEq .. ▸ h)).symm)

/-! ### Byte-string capabilities (C8) -/

theorem take_drop_slice_length {l : List Nat} {a k : Nat} (h : a + k ≤ l.length) :
    ((l.take (a + k)).drop a).length = k := by
  simp [List.length_drop, List.length_take]
  omega

theorem copyWithin_isSome {v : List Nat} {a b d : Nat} (hab : a ≤ b) (hbv : b ≤ v.length)
    (hd : d + (b - a) ≤ v.length) :
    ∃ w, copyWithin v a b d = some w ∧ w.length = v.length := by
  unfold copyWithin
  rw [if_pos ⟨hab, hbv, hd⟩]
  have hsrc : ((v.take b).drop a).length = d + (b - a) - d := by
    simp [List.length_drop, List.length_take]
    omega
  exact ⟨_, sliceAssign_isSome (Nat.le_add_right d (b - a)) hd hsrc,
    sliceAssign_length (sliceAssign_isSome (Nat.le_add_right d (b - a)) hd hsrc)⟩

/-- C8: for the built-in byte-string packet with `|self| ≥ 1` and
`|other| ≥ 1`, `mutate_crossover_insert` returns `Mutated` and grows `|self|`
by between 1 and `|other|` bytes, `mutate_crossover_replace` returns
`Mutated` and leaves `|self|` unchanged, and `mutate_splice` returns
`Mutated` with a resulting `|self| ≥ 1`. -/
theorem bytes_capabilities_spec (r1 r2 r3 : Nat) (selfB other : List Nat)
    (hS : 1 ≤ selfB.length) (hO : 1 ≤ other.length) :
    (∃ v, bytesCrossoverInsert r1 r2 r3 selfB other = some (.mutated, v) ∧
      selfB.length + 1 ≤ v.length ∧ v.length ≤ selfB.length + other.length) ∧
    (∃ v, bytesCrossoverReplace r1 r2 r3 selfB other = some (.mutated, v) ∧
      v.length = selfB.length) ∧
    (∃ v, bytesSplice r1 r2 selfB other = some (.mutated, v) ∧ 1 ≤ v.length) := by
  have hcond : ¬(selfB.length = 0 ∨ other.length = 0) := by omega
  refine ⟨?_, ?_, ?_⟩
  · -- crossover insert
    have hfr : r1 % other.length < other.length := Nat.mod_lt _ (by omega)
    have hto : r2 % selfB.length < selfB.length := Nat.mod_lt _ (by omega)
    have hlen : r3 % (other.length - r1 % other.length) < other.length - r1 % other.length :=
      Nat.mod_lt _ (by omega)
    have hv1len : (listResize selfB
        (selfB.length + (r3 % (other.length - r1 % other.length) + 1)) 0).length =
        selfB.length + (r3 % (other.length - r1 % other.length) + 1) :=
      listResize_length _ _ _
    obtain ⟨v2, hv2, hv2len⟩ := copyWithin_isSome
      (v := listResize selfB (selfB.length + (r3 % (other.length - r1 % other.length) + 1)) 0)
      (a := r2 % selfB.length) (b := selfB.length)
      (d := r2 % selfB.length + (r3 % (other.length - r1 % other.length) + 1))
      (by omega) (by omega) (by omega)
    rw [hv1len] at hv2len
    have hsrc : ((other.take (r1 % other.length + (r3 % (other.length - r1 % other.length) + 1))).drop
        (r1 % other.length)).length = r3 % (other.length - r1 % other.length) + 1 :=
      take_drop_slice_length (by omega)
    have hv3 := @sliceAssign_isSome v2 (r2 % selfB.length)
      (r2 % selfB.length + (r3 % (other.length - r1 % other.length) + 1))
      ((other.take (r1 % other.length + (r3 % (other.length - r1 % other.length) + 1))).drop
        (r1 % other.length))
      (by omega) (by omega) (by rw [hsrc]; omega)
    have hv3len := sliceAssign_length hv3
    simp only [bytesCrossoverInsert, if_neg hcond, hv2, hv3]
    refine ⟨_, rfl, ?_, ?_⟩ <;> rw [hv3len] <;> omega
  · -- crossover replace
    have hfr : r1 % other.length < other.length := Nat.mod_lt _ (by omega)
    have hto : r2 % selfB.length < selfB.length := Nat.mod_lt _ (by omega)
    have hmin : r3 % (min (other.length - r1 % other.length) (selfB.length - r2 % selfB.length)) <
        min (other.length - r1 % other.length) (selfB.length - r2 % selfB.length) :=
      Nat.mod_lt _ (by omega)
    have hsrc : ((other.take (r1 % other.length +
        (1 + r3 % (min (other.length - r1 % other.length)
          (selfB.length - r2 % selfB.length))))).drop (r1 % other.length)).length =
        1 + r3 % (min (other.length - r1 % other.length) (selfB.length - r2 % selfB.length)) :=
      take_drop_slice_length (by omega)
    have hv := @sliceAssign_isSome selfB (r2 % selfB.length)
      (r2 % selfB.length + (1 + r3 % (min (other.length - r1 % other.length)
        (selfB.length - r2 % selfB.length))))
      ((other.take (r1 % other.length + (1 + r3 % (min (other.length - r1 % other.length)
        (selfB.length - r2 % selfB.length))))).drop (r1 % other.length))
      (by omega) (by omega) (by rw [hsrc]; omega)
    have hvlen := sliceAssign_length hv
    simp only [bytesCrossoverReplace, if_neg hcond, hv]
    exact ⟨_, rfl, hvlen⟩
  · -- splice
    have hto : r1 % selfB.length < selfB.length := Nat.mod_lt _ (by omega)
    have hfr : r2 % other.length < other.length := Nat.mod_lt _ (by omega)
    by_cases hgrow : selfB.length < r1 % selfB.length + (other.length - r2 % other.length)
    · have hv1len : (listResize selfB
          (r1 % selfB.length + (other.length - r2 % other.length)) 0).length =
          r1 % selfB.length + (other.length - r2 % other.length) := listResize_length _ _ _
      have hsrc : ((other.take (r2 % other.length + (other.length - r2 % other.length))).drop
          (r2 % other.length)).length = other.length - r2 % other.length :=
        take_drop_slice_length (by omega)
      have hv := @sliceAssign_isSome
        (listResize selfB (r1 % selfB.length + (other.length - r2 % other.length)) 0)
        (r1 % selfB.length)
        (r1 % selfB.length + (other.length - r2 % other.length))
        ((other.take (r2 % other.length + (other.length - r2 % other.length))).drop
          (r2 % other.length))
        (by omega) (by omega) (by rw [hsrc]; omega)
      have hvlen := sliceAssign_length hv
      rw [hv1len] at hvlen
      simp only [bytesSplice, if_neg hcond, if_pos hgrow, hv]
      exact ⟨_, rfl, by rw [hvlen]; omega⟩
    · have hsrc : ((other.take (r2 % other.length + (other.length - r2 % other.length))).drop
          (r2 % other.length)).length = other.length - r2 % other.length :=
        take_drop_slice_length (by omega)
      have hv := @sliceAssign_isSome selfB (r1 % selfB.length)
        (r1 % selfB.length + (other.length - r2 % other.length))
        ((other.take (r2 % other.length + (other.length - r2 % other.length))).drop
          (r2 % other.length))
        (by omega) (by omega) (by rw [hsrc]; omega)
      have hvlen := sliceAssign_length hv
      simp only [bytesSplice, if_neg hcond, if_neg hgrow, hv]
      exact ⟨_, rfl, by rw [hvlen]; omega⟩

/-- Witness for C8 at `self = [1]`, `other = [2, 3]` and zero draws. -/
theorem bytes_capabilities_spec_witness :
    (∃ v, bytesCrossoverInsert 0 0 0 [1] [2, 3] = some (.mutated, v) ∧
      ([1] : List Nat).length + 1 ≤ v.length ∧
        v.length ≤ ([1] : List Nat).length + ([2, 3] : List Nat).length) ∧
    (∃ v, bytesCrossoverReplace 0 0 0 [1] [2, 3] = some (.mutated, v) ∧
      v.length = ([1] : List Nat).length) ∧
    (∃ v, bytesSplice 0 0 [1] [2, 3] = some (.mutated, v) ∧ 1 ≤ v.length) :=
  bytes_capabilities_spec 0 0 0 [1] [2, 3] (by decide) (by decide)

/-! ### Mutation scheduler (C6, C10) -/

/-- C6: every terminating `scheduled_mutate` call without an engine error
invokes sub-mutators one at a time at indices below the mutator count, every
invocation before the last returns `Skipped`, the last returns `Mutated`,
the call returns `Mutated` immediately after that first `Mutated` result
(no further sub-mutator appears in the trace), and the iteration count is
the constant 1. -/
theorem scheduled_mutate_spec {I : Type} (muts : Nat → I → MutOutcome × I) (n : Nat)
    (r : Nat → Nat) (fuel k : Nat) (inp : I) (res : MutOutcome) (inpF : I)
    (tr : List (Nat × MutOutcome))
    (h : scheduled_mutate muts n r fuel k inp = some (res, inpF, tr)) :
    (res = .err ∨ res = .ok .mutated) ∧
    (res = .ok .mutated →
      ∃ pre i, tr = pre ++ [(i, MutOutcome.ok .mutated)] ∧
        ∀ p ∈ pre, p.2 = MutOutcome.ok .skipped) ∧
    (∀ p ∈ tr, p.1 < n) ∧
    scheduler_iterations inp = 1 := by
  induction fuel generalizing k inp res inpF tr with
  | zero => cases h
  | succ fuel ih =>
    unfold scheduled_mutate at h
    by_cases hn : n = 0
    · rw [if_pos hn] at h
      cases h
    · rw [if_neg hn] at h
      dsimp only at h
      have hidx : r k % n < n := Nat.mod_lt _ (Nat.pos_of_ne_zero hn)
      split at h
      · rename_i inp2 hmuts
        split at h
        · cases h
        · rename_i res0 inpF0 tr0 hrec
          simp only [Option.some.injEq, Prod.mk.injEq] at h
          obtain ⟨hres, hinpF, htr⟩ := h
          obtain ⟨h1, h2, h3, _⟩ := ih (k + 1) inp2 res0 inpF0 tr0 hrec
          subst hres
          refine ⟨h1, ?_, ?_, rfl⟩
          · intro hmut
            obtain ⟨pre, i, hpre, hskip⟩ := h2 hmut
            refine ⟨(r k % n, MutOutcome.ok .skipped) :: pre, i, ?_, ?_⟩
            · rw [← htr, hpre]
              rfl
            · intro p hp
              rcases List.mem_cons.mp hp with hp1 | hp1
              · rw [hp1]
              · exact hskip p hp1
          · intro p hp
            rw [← htr] at hp
            rcases List.mem_cons.mp hp with hp1 | hp1
            · rw [hp1]
              exact hidx
            · exact h3 p hp1
      · rename_i out inp2 hnm heq
        simp only [Option.some.injEq, Prod.mk.injEq] at h
        obtain ⟨hres, hinpF, htr⟩ := h
        have hout : out ≠ MutOutcome.ok .skipped := by
          intro hcon
          exact hnm hcon
        subst hres
        refine ⟨?_, ?_, ?_, rfl⟩
        · cases out with
          | err => exact Or.inl rfl
          | ok m =>
            cases m with
            | mutated => exact Or.inr rfl
            | skipped => exact absurd rfl hout
        · intro hmut
          refine ⟨[], r k % n, ?_, fun p hp => nomatch hp⟩
          rw [← htr, hmut]
          rfl
        · intro p hp
          rw [← htr] at hp
          rcases List.mem_cons.mp hp with hp1 | hp1
          · rw [hp1]
            exact hidx
          · cases hp1

/-- Witness for C6: three sub-mutators, the first invocation skips and the
second mutates; the trace is `[(0, Skipped), (1, Mutated)]`. -/
theorem scheduled_mutate_spec_witness :
    (MutOutcome.ok .mutated = MutOutcome.err ∨
      MutOutcome.ok .mutated = MutOutcome.ok .mutated) ∧
    (MutOutcome.ok MutationResult.mutated = MutOutcome.ok .mutated →
      ∃ pre i, [(0, MutOutcome.ok MutationResult.skipped), (1, MutOutcome.ok .mutated)] =
        pre ++ [(i, MutOutcome.ok .mutated)] ∧
          ∀ p ∈ pre, p.2 = MutOutcome.ok MutationResult.skipped) ∧
    (∀ p ∈ [(0, MutOutcome.ok MutationResult.skipped), (1, MutOutcome.ok .mutated)],
      p.1 < 3) ∧
    scheduler_iterations (0 : Nat) = 1 :=
  scheduled_mutate_spec
    (fun _ i => if i = 0 then (MutOutcome.ok .skipped, 1) else (MutOutcome.ok .mutated, 2))
    3 (fun k => k) 5 0 0 (MutOutcome.ok .mutated) 2
    [(0, MutOutcome.ok MutationResult.skipped), (1, MutOutcome.ok .mutated)] (by decide)

/-- C10: when every registered sub-mutator skips on the given input (leaving
it unchanged, as `Skipped` requires), the retry loop of `scheduled_mutate`
never exits: no amount of fuel makes it terminate, so the call is total only
when some sub-mutator can return `Mutated`. -/
theorem scheduled_mutate_diverges {I : Type} (muts : Nat → I → MutOutcome × I) (n : Nat)
    (r : Nat → Nat) (inp : I)
    (hskip : ∀ idx, muts idx inp = (MutOutcome.ok .skipped, inp)) :
    ∀ fuel k, scheduled_mutate muts n r fuel k inp = none := by
  intro fuel
  induction fuel with
  | zero => intro k; rfl
  | succ fuel ih =>
    intro k
    unfold scheduled_mutate
    by_cases hn : n = 0
    · rw [if_pos hn]
    · rw [if_neg hn]
      simp only [hskip (r k % n), ih (k + 1)]

/-- The reorder mutator as a scheduler sub-mutator (draws fixed to zero). -/
def reorderSubMutator (i : List Nat) : MutOutcome × List Nat :=
  (MutOutcome.ok (reorderMutate 0 0 i).1, (reorderMutate 0 0 i).2)

/-- The delete mutator (min one packet) as a scheduler sub-mutator. -/
def deleteSubMutator (i : List Nat) : MutOutcome × List Nat :=
  (MutOutcome.ok (deleteMutate 1 0 i).1, (deleteMutate 1 0 i).2)

/-- Witness for C10: a one-packet input under only the reorder and delete
sub-mutators — both always skip, and the loop diverges for every fuel. -/
theorem scheduled_mutate_diverges_witness :
    (∀ idx, (fun idx i => if idx % 2 = 0 then reorderSubMutator i else deleteSubMutator i)
      idx [5] = (MutOutcome.ok .skipped, [5])) ∧
    ∀ fuel k, scheduled_mutate
      (fun idx i => if idx % 2 = 0 then reorderSubMutator i else deleteSubMutator i)
      2 (fun _ => 0) fuel k [5] = none := by
  have hskip : ∀ idx,
      (fun idx i => if idx % 2 = 0 then reorderSubMutator i else deleteSubMutator i)
        idx [5] = (MutOutcome.ok .skipped, [5]) := by
    intro idx
    by_cases h : idx % 2 = 0 <;> simp only [h] <;> decide
  exact ⟨hskip, scheduled_mutate_diverges _ 2 (fun _ => 0) [5] hskip⟩

/-! ### Recording a run (C2) -/

/-- Consecutive pairs of a list of observed states. -/
def consecPairs {PS : Type} (ss : List PS) : List (PS × PS) := ss.zip ss.tail

theorem consecPairs_cons_cons {PS : Type} (a b : PS) (t : List PS) :
    consecPairs (a :: b :: t) = (a, b) :: consecPairs (b :: t) := rfl

theorem consecPairs_single {PS : Type} (a : PS) : consecPairs [a] = [] := rfl

theorem add_edge_nodes {PS : Type} (g : StateGraph PS) (id : Nat) :
    (g.add_edge id).nodes = g.nodes := by
  unfold StateGraph.add_edge
  match g.last_node with
  | none => rfl
  | some old =>
    by_cases hne : old ≠ id
    · simp only [if_pos hne]
    · simp only [if_neg hne]

theorem add_edge_last {PS : Type} (g : StateGraph PS) (id : Nat) :
    (g.add_edge id).last_node = some id := by
  unfold StateGraph.add_edge
  match g.last_node with
  | none => rfl
  | some old =>
    by_cases hne : old ≠ id
    · simp only [if_pos hne]
    · simp only [if_neg hne]

theorem add_edge_of_some {PS : Type} {g : StateGraph PS} {old : Nat} (id : Nat)
    (hl : g.last_node = some old) :
    (old ≠ id → (g.add_edge id).edges = insert (pack_transition old id) g.edges ∧
      (g.add_edge id).new_transitions =
        (g.new_transitions || decide (pack_transition old id ∉ g.edges))) ∧
    (old = id → (g.add_edge id).edges = g.edges ∧
      (g.add_edge id).new_transitions = g.new_transitions) := by
  constructor
  · intro hne
    simp only [StateGraph.add_edge, hl, if_pos hne]
    exact ⟨trivial, trivial⟩
  · intro heq
    have hne : ¬old ≠ id := fun hcon => hcon heq
    simp only [StateGraph.add_edge, hl, if_neg hne]
    exact ⟨trivial, trivial⟩

theorem add_edge_of_none {PS : Type} {g : StateGraph PS} (id : Nat)
    (hl : g.last_node = none) :
    (g.add_edge id).edges = g.edges ∧
      (g.add_edge id).new_transitions = g.new_transitions := by
  simp only [StateGraph.add_edge, hl]
  exact ⟨trivial, trivial⟩

theorem add_node_spec {PS : Type} [DecidableEq PS] (g : StateGraph PS) (s : PS) :
    (g.add_node s).1.edges = g.edges ∧
    (g.add_node s).1.last_node = g.last_node ∧
    (g.add_node s).1.new_transitions = g.new_transitions ∧
    s ∈ (g.add_node s).1.nodes ∧
    (g.add_node s).2 = (g.add_node s).1.nodeId s ∧
    (∃ t, (g.add_node s).1.nodes = g.nodes ++ t) ∧
    (∀ x ∈ g.nodes, (g.add_node s).1.nodeId x = g.nodeId x) := by
  by_cases hmem : s ∈ g.nodes
  · simp only [StateGraph.add_node, if_pos hmem]
    exact ⟨by trivial, by trivial, by trivial, hmem, by trivial, ⟨[], by simp⟩,
      fun x _ => by trivial⟩
  · simp only [StateGraph.add_node, if_neg hmem]
    refine ⟨by trivial, by trivial, by trivial,
      List.mem_append_right _ (List.mem_singleton.mpr rfl), ?_, ⟨[s], by trivial⟩, ?_⟩
    · show g.nodes.length % 2 ^ 32 = idxOf (g.nodes ++ [s]) s % 2 ^ 32
      rw [idxOf_append_self hmem]
    · intro x hx
      show idxOf (g.nodes ++ [s]) x % 2 ^ 32 = idxOf g.nodes x % 2 ^ 32
      rw [idxOf_append_of_mem [s] hx]

theorem record_nodes_extend {PS : Type} [DecidableEq PS] (g : StateGraph PS) (s : PS) :
    ∃ t, (g.record s).nodes = g.nodes ++ t := by
  obtain ⟨_, _, _, _, _, ⟨t, ht⟩, _⟩ := add_node_spec g s
  refine ⟨t, ?_⟩
  show ((g.add_node s).1.add_edge (g.add_node s).2).nodes = g.nodes ++ t
  rw [add_edge_nodes, ht]

theorem run_cons {PS : Type} [DecidableEq PS] (g : StateGraph PS) (s : PS) (ss : List PS) :
    g.run (s :: ss) = (g.record s).run ss := rfl

theorem run_nodes_extend {PS : Type} [DecidableEq PS] :
    ∀ (ss : List PS) (g : StateGraph PS), ∃ t, (g.run ss).nodes = g.nodes ++ t := by
  intro ss
  induction ss with
  | nil => exact fun g => ⟨[], by simp [StateGraph.run]⟩
  | cons s rest ih =>
    intro g
    obtain ⟨t1, h1⟩ := record_nodes_extend g s
    obtain ⟨t2, h2⟩ := ih (g.record s)
    exact ⟨t1 ++ t2, by rw [run_cons, h2, h1, List.append_assoc]⟩

theorem nodeId_of_append {PS : Type} [DecidableEq PS] {g g' : StateGraph PS} {x : PS}
    {t : List PS} (hx : x ∈ g.nodes) (h : g'.nodes = g.nodes ++ t) :
    g'.nodeId x = g.nodeId x := by
  unfold StateGraph.nodeId
  rw [h, idxOf_append_of_mem t hx]

theorem nodeId_inj_of_mem {PS : Type} [DecidableEq PS] {g : StateGraph PS} {a b : PS}
    (ha : a ∈ g.nodes) (hb : b ∈ g.nodes) (hbound : g.nodes.length ≤ 2 ^ 32) :
    g.nodeId a = g.nodeId b ↔ a = b := by
  constructor
  · intro h
    unfold StateGraph.nodeId at h
    have h1 := idxOf_lt_length ha
    have h2 := idxOf_lt_length hb
    rw [Nat.mod_eq_of_lt (by omega), Nat.mod_eq_of_lt (by omega)] at h
    exact idxOf_inj ha hb h
  · intro h
    rw [h]

theorem record_spec {PS : Type} [DecidableEq PS] (g : StateGraph PS) (prev s : PS)
    (hprev : prev ∈ g.nodes) (hlast : g.last_node = some (g.nodeId prev))
    (hbound : (g.record s).nodes.length ≤ 2 ^ 32) :
    s ∈ (g.record s).nodes ∧
    prev ∈ (g.record s).nodes ∧
    (∃ t, (g.record s).nodes = g.nodes ++ t) ∧
    (g.record s).last_node = some ((g.record s).nodeId s) ∧
    (g.record s).nodeId prev = g.nodeId prev ∧
    (prev = s →
      (g.record s).edges = g.edges ∧
        (g.record s).new_transitions = g.new_transitions) ∧
    (prev ≠ s →
      (g.record s).edges =
        insert (pack_transition ((g.record s).nodeId prev) ((g.record s).nodeId s)) g.edges ∧
      (g.record s).new_transitions = (g.new_transitions ||
        decide (pack_transition ((g.record s).nodeId prev) ((g.record s).nodeId s) ∉
          g.edges))) := by
  obtain ⟨hedges, hlast1, hnt1, hsmem, hid, ⟨t, ht⟩, hpres⟩ := add_node_spec g s
  have hrn : (g.record s).nodes = (g.add_node s).1.nodes :=
    add_edge_nodes (g.add_node s).1 (g.add_node s).2
  have hrid : ∀ x, (g.record s).nodeId x = (g.add_node s).1.nodeId x := by
    intro x
    unfold StateGraph.nodeId
    rw [hrn]
  have hprev1 : prev ∈ (g.add_node s).1.nodes := ht ▸ List.mem_append_left t hprev
  have hlast1' : (g.add_node s).1.last_node = some ((g.add_node s).1.nodeId prev) := by
    rw [hlast1, hlast, hpres prev hprev]
  refine ⟨hrn ▸ hsmem, hrn ▸ hprev1, ⟨t, hrn ▸ ht⟩, ?_, ?_, ?_, ?_⟩
  · show ((g.add_node s).1.add_edge (g.add_node s).2).last_node = some ((g.record s).nodeId s)
    rw [add_edge_last, hrid s, hid]
  · rw [hrid prev, hpres prev hprev]
  · intro heq
    have hideq : (g.add_node s).1.nodeId prev = (g.add_node s).1.nodeId s := by rw [heq]
    have h2 := (add_edge_of_some (g.add_node s).2 hlast1').2
      (by rw [hid, hideq])
    show ((g.add_node s).1.add_edge (g.add_node s).2).edges = g.edges ∧
      ((g.add_node s).1.add_edge (g.add_node s).2).new_transitions = g.new_transitions
    rw [h2.1, h2.2, hedges, hnt1]
    exact ⟨rfl, rfl⟩
  · intro hne
    have hblen : (g.add_node s).1.nodes.length ≤ 2 ^ 32 := by
      rw [← hrn]
      exact hbound
    have hidne : (g.add_node s).1.nodeId prev ≠ (g.add_node s).1.nodeId s := by
      intro hcon
      exact hne ((nodeId_inj_of_mem hprev1 hsmem hblen).mp hcon)
    have h2 := (add_edge_of_some (g.add_node s).2 hlast1').1
      (by rw [hid]; exact hidne)
    show ((g.add_node s).1.add_edge (g.add_node s).2).edges = _ ∧
      ((g.add_node s).1.add_edge (g.add_node s).2).new_transitions = _
    rw [h2.1, h2.2, hedges, hnt1, hid, hrid prev, hrid s]
    exact ⟨rfl, rfl⟩

theorem run_aux {PS : Type} [DecidableEq PS] :
    ∀ (ss : List PS) (g : StateGraph PS) (prev : PS),
      prev ∈ g.nodes →
      g.last_node = some (g.nodeId prev) →
      (g.run ss).nodes.length ≤ 2 ^ 32 →
      (∀ x, x ∈ (g.run ss).edges ↔ x ∈ g.edges ∨
        ∃ p ∈ consecPairs (prev :: ss), p.1 ≠ p.2 ∧
          x = pack_transition ((g.run ss).nodeId p.1) ((g.run ss).nodeId p.2)) ∧
      ((g.run ss).new_transitions = true ↔ g.new_transitions = true ∨
        ∃ p ∈ consecPairs (prev :: ss), p.1 ≠ p.2 ∧
          pack_transition ((g.run ss).nodeId p.1) ((g.run ss).nodeId p.2) ∉ g.edges) := by
  intro ss
  induction ss with
  | nil =>
    intro g prev hprev hlast hbound
    constructor
    · intro x
      simp [StateGraph.run, consecPairs_single]
    · simp [StateGraph.run, consecPairs_single]
  | cons s rest ih =>
    intro g prev hprev hlast hbound
    rw [run_cons] at hbound ⊢
    obtain ⟨t1, ht1⟩ := run_nodes_extend rest (g.record s)
    have hrecbound : (g.record s).nodes.length ≤ 2 ^ 32 := by
      have := congrArg List.length ht1
      simp only [List.length_append] at this
      omega
    obtain ⟨hs2, hprev2, ⟨t0, ht0⟩, hlast2, hprevId, heqcase, hnecase⟩ :=
      record_spec g prev s hprev hlast hrecbound
    obtain ⟨ihA, ihB⟩ := ih (g.record s) s hs2 hlast2 hbound
    have hFprev : ((g.record s).run rest).nodeId prev = (g.record s).nodeId prev :=
      nodeId_of_append hprev2 ht1
    have hFs : ((g.record s).run rest).nodeId s = (g.record s).nodeId s :=
      nodeId_of_append hs2 ht1
    by_cases hps : prev = s
    · subst hps
      obtain ⟨hge, hgn⟩ := heqcase rfl
      constructor
      · intro x
        rw [ihA x, hge, consecPairs_cons_cons, List.exists_mem_cons_iff]
        constructor
        · rintro (hx | hx)
          · exact Or.inl hx
          · exact Or.inr (Or.inr hx)
        · rintro (hx | ⟨hne, _⟩ | hx)
          · exact Or.inl hx
          · exact absurd rfl hne
          · exact Or.inr hx
      · rw [ihB, hge, hgn, consecPairs_cons_cons, List.exists_mem_cons_iff]
        constructor
        · rintro (hx | hx)
          · exact Or.inl hx
          · exact Or.inr (Or.inr hx)
        · rintro (hx | ⟨hne, _⟩ | hx)
          · exact Or.inl hx
          · exact absurd rfl hne
          · exact Or.inr hx
    · obtain ⟨hge, hgn⟩ := hnecase hps
      have hE : pack_transition (((g.record s).run rest).nodeId prev)
          (((g.record s).run rest).nodeId s) =
          pack_transition ((g.record s).nodeId prev) ((g.record s).nodeId s) := by
        rw [hFprev, hFs]
      constructor
      · intro x
        rw [ihA x, hge, consecPairs_cons_cons, List.exists_mem_cons_iff, Finset.mem_insert]
        constructor
        · rintro ((hx | hx) | hx)
          · refine Or.inr (Or.inl ⟨hps, ?_⟩)
            show x = pack_transition (((g.record s).run rest).nodeId prev)
              (((g.record s).run rest).nodeId s)
            rw [hE]
            exact hx
          · exact Or.inl hx
          · exact Or.inr (Or.inr hx)
        · rintro (hx | ⟨_, hx⟩ | hx)
          · exact Or.inl (Or.inr hx)
          · refine Or.inl (Or.inl ?_)
            have hx2 : x = pack_transition (((g.record s).run rest).nodeId prev)
              (((g.record s).run rest).nodeId s) := hx
            rw [hE] at hx2
            exact hx2
          · exact Or.inr hx
      · rw [ihB, hgn, consecPairs_cons_cons, List.exists_mem_cons_iff]
        simp only [Bool.or_eq_true, decide_eq_true_eq]
        constructor
        · rintro ((hx | hx) | ⟨p, hp, hpne, hpnm⟩)
          · exact Or.inl hx
          · refine Or.inr (Or.inl ⟨hps, ?_⟩)
            show pack_transition (((g.record s).run rest).nodeId prev)
              (((g.record s).run rest).nodeId s) ∉ g.edges
            rw [hE]
            exact hx
          · refine Or.inr (Or.inr ⟨p, hp, hpne, ?_⟩)
            rw [hge] at hpnm
            intro hcon
            exact hpnm (Finset.mem_insert_of_mem hcon)
        · rintro (hx | ⟨_, hx⟩ | ⟨p, hp, hpne, hpnm⟩)
          · exact Or.inl (Or.inl hx)
          · refine Or.inl (Or.inr ?_)
            have hx2 : pack_transition (((g.record s).run rest).nodeId prev)
              (((g.record s).run rest).nodeId s) ∉ g.edges := hx
            rw [hE] at hx2
            exact hx2
          · by_cases hpe : pack_transition (((g.record s).run rest).nodeId p.1)
              (((g.record s).run rest).nodeId p.2) =
              pack_transition ((g.record s).nodeId prev) ((g.record s).nodeId s)
            · refine Or.inl (Or.inr ?_)
              rw [← hpe]
              exact hpnm
            · refine Or.inr ⟨p, hp, hpne, ?_⟩
              rw [hge, Finset.mem_insert]
              rintro (hcon | hcon)
              · exact hpe hcon
              · exact hpnm hcon

/-- C2: starting from any graph state immediately after a reset
(`last_node = None`, `new_transitions = false`), recording the states
`s₁, …, sₙ` leaves the edge set equal to its previous value united with the
packed pairs of consecutive distinct recorded states (so the first recorded
state creates no edge), and sets `new_transitions` exactly when one of those
pairs was not already present.  The bound keeps the dense `u32` node ids
below the `as u32` truncation threshold. -/
theorem record_run_spec {PS : Type} [DecidableEq PS] (g : StateGraph PS) (ss : List PS)
    (hlast : g.last_node = none) (hnt : g.new_transitions = false)
    (hbound : (g.run ss).nodes.length ≤ 2 ^ 32) :
    (∀ x, x ∈ (g.run ss).edges ↔ x ∈ g.edges ∨
      ∃ p ∈ consecPairs ss, p.1 ≠ p.2 ∧
        x = pack_transition ((g.run ss).nodeId p.1) ((g.run ss).nodeId p.2)) ∧
    ((g.run ss).new_transitions = true ↔
      ∃ p ∈ consecPairs ss, p.1 ≠ p.2 ∧
        pack_transition ((g.run ss).nodeId p.1) ((g.run ss).nodeId p.2) ∉ g.edges) := by
  cases ss with
  | nil =>
    constructor
    · intro x
      simp [StateGraph.run, consecPairs]
    · rw [show ((g.run []).new_transitions = g.new_transitions) from rfl, hnt]
      simp [consecPairs]
  | cons s rest =>
    rw [run_cons] at hbound ⊢
    obtain ⟨hedges1, hlastA, hntA, hsmem, hid, ⟨t0, ht0⟩, hpres⟩ := add_node_spec g s
    have hln : (g.add_node s).1.last_node = none := by rw [hlastA, hlast]
    obtain ⟨hge, hgn⟩ := add_edge_of_none (g.add_node s).2 hln
    have hrecn : (g.record s).nodes = (g.add_node s).1.nodes := add_edge_nodes _ _
    have hrece : (g.record s).edges = g.edges := by
      show ((g.add_node s).1.add_edge (g.add_node s).2).edges = g.edges
      rw [hge, hedges1]
    have hrecnt : (g.record s).new_transitions = false := by
      show ((g.add_node s).1.add_edge (g.add_node s).2).new_transitions = false
      rw [hgn, hntA, hnt]
    have hrecs : s ∈ (g.record s).nodes := hrecn ▸ hsmem
    have hreclast : (g.record s).last_node = some ((g.record s).nodeId s) := by
      show ((g.add_node s).1.add_edge (g.add_node s).2).last_node = _
      rw [add_edge_last, hid]
      congr 1
      unfold StateGraph.nodeId
      rw [hrecn]
    obtain ⟨hA, hB⟩ := run_aux rest (g.record s) s hrecs hreclast hbound
    constructor
    · intro x
      rw [hA x, hrece]
    · rw [hB, hrecnt, hrece]
      simp

/-- Witness for C2 at the S1 scenario: a fresh graph recording
`[220, 331, 230, 230, 215]`. -/
theorem record_run_spec_witness :
    (∀ x, x ∈ ((StateGraph.new Nat).run [220, 331, 230, 230, 215]).edges ↔
      x ∈ (StateGraph.new Nat).edges ∨
      ∃ p ∈ consecPairs [220, 331, 230, 230, 215], p.1 ≠ p.2 ∧
        x = pack_transition (((StateGraph.new Nat).run [220, 331, 230, 230, 215]).nodeId p.1)
          (((StateGraph.new Nat).run [220, 331, 230, 230, 215]).nodeId p.2)) ∧
    (((StateGraph.new Nat).run [220, 331, 230, 230, 215]).new_transitions = true ↔
      ∃ p ∈ consecPairs [220, 331, 230, 230, 215], p.1 ≠ p.2 ∧
        pack_transition (((StateGraph.new Nat).run [220, 331, 230, 230, 215]).nodeId p.1)
          (((StateGraph.new Nat).run [220, 331, 230, 230, 215]).nodeId p.2) ∉
          (StateGraph.new Nat).edges) :=
  record_run_spec (StateGraph.new Nat) [220, 331, 230, 230, 215] rfl rfl (by decide)

/-! ### Name generation and wire-format injectivity (C9) -/

theorem ftp_to_bytes_extend_inj : ∀ (p q : FtpProtocol),
    p.to_bytes_extend = q.to_bytes_extend → p = q := by
  intro p q h
  rcases p with n | pw | _ | ⟨a, b⟩ | d | cd | _ <;>
    rcases q with n2 | pw2 | _ | ⟨a2, b2⟩ | d2 | cd2 | _ <;>
    try rcases d with _ | x <;>
    try rcases d2 with _ | y
  all_goals
    simp_all [FtpProtocol.to_bytes_extend, List.append_left_inj, List.append_right_inj]

theorem u32_be_inj {m n : Nat} (hm : m < 2 ^ 32) (hn : n < 2 ^ 32)
    (h : u32_be m = u32_be n) : m = n := by
  simp [u32_be] at h
  omega

theorem u32_be_length (n : Nat) : (u32_be n).length = 4 := rfl

/-- One length-prefixed record of the wire body. -/
def wireRecord (p : FtpProtocol) : List Nat :=
  u32_be (p.to_bytes_extend.length % 2 ^ 32) ++ p.to_bytes_extend

theorem wire_body_inj : ∀ (l1 l2 : List FtpProtocol),
    (∀ p ∈ l1, p.to_bytes_extend.length < 2 ^ 32) →
    (∀ p ∈ l2, p.to_bytes_extend.length < 2 ^ 32) →
    l1.length = l2.length →
    (l1.map wireRecord).flatten = (l2.map wireRecord).flatten →
    l1 = l2 := by
  intro l1
  induction l1 with
  | nil =>
    intro l2 _ _ hlen _
    cases l2 with
    | nil => rfl
    | cons b t => simp at hlen
  | cons a t ih =>
    intro l2 hb1 hb2 hlen h
    cases l2 with
    | nil => simp at hlen
    | cons b t2 =>
      simp only [List.map_cons, List.flatten_cons, wireRecord, List.append_assoc] at h
      obtain ⟨hu, hrest⟩ := List.append_inj h (by rw [u32_be_length, u32_be_length])
      have hba : a.to_bytes_extend.length < 2 ^ 32 := hb1 a (List.mem_cons_self a t)
      have hbb : b.to_bytes_extend.length < 2 ^ 32 := hb2 b (List.mem_cons_self b t2)
      have hlen_ab : a.to_bytes_extend.length = b.to_bytes_extend.length := by
        have := u32_be_inj (m := a.to_bytes_extend.length % 2 ^ 32)
          (n := b.to_bytes_extend.length % 2 ^ 32)
          (Nat.mod_lt _ (by norm_num)) (Nat.mod_lt _ (by norm_num)) hu
        rw [Nat.mod_eq_of_lt hba, Nat.mod_eq_of_lt hbb] at this
        exact this
      obtain ⟨hab, htail⟩ := List.append_inj hrest hlen_ab
      have hcons : a = b := ftp_to_bytes_extend_inj a b hab
      have hteq : t = t2 := ih t2 (fun p hp => hb1 p (List.mem_cons_of_mem a hp))
        (fun p hp => hb2 p (List.mem_cons_of_mem b hp)) (by simpa using hlen) htail
      rw [hcons, hteq]

theorem wireFormatSpec_inj (l1 l2 : List FtpProtocol)
    (hc1 : l1.length < 2 ^ 32) (hc2 : l2.length < 2 ^ 32)
    (hp1 : ∀ p ∈ l1, p.to_bytes_extend.length < 2 ^ 32)
    (hp2 : ∀ p ∈ l2, p.to_bytes_extend.length < 2 ^ 32)
    (h : wireFormatSpec l1 = wireFormatSpec l2) : l1 = l2 := by
  unfold wireFormatSpec at h
  obtain ⟨hu, hbody⟩ := List.append_inj h (by rw [u32_be_length, u32_be_length])
  have hcount : l1.length = l2.length := by
    have := u32_be_inj (m := l1.length % 2 ^ 32) (n := l2.length % 2 ^ 32)
      (Nat.mod_lt _ (by norm_num)) (Nat.mod_lt _ (by norm_num)) hu
    rw [Nat.mod_eq_of_lt hc1, Nat.mod_eq_of_lt hc2] at this
    exact this
  exact wire_body_inj l1 l2 hp1 hp2 hcount hbody

theorem hexDigitChar_spec : ∀ m, m < 16 →
    (48 ≤ (hexDigitChar m).toNat ∧ (hexDigitChar m).toNat ≤ 57) ∨
      (97 ≤ (hexDigitChar m).toNat ∧ (hexDigitChar m).toNat ≤ 102) := by
  intro m hm
  interval_cases m <;> decide

/-- C9: `generate_name` always yields exactly 16 lowercase hexadecimal
digits (codes 48–57 and 97–102), and it is a deterministic function of the
input's serialized content: two inputs with equal §3 wire serializations are
equal (the FTP wire encoding is injective), hence get equal names whatever
64-bit hash `generic_hash_std` computes.  The bounds keep the `u32` length
fields of the wire format below their truncation threshold. -/
theorem generate_name_spec (hash : List FtpProtocol → Nat) (pkts p1 p2 : List FtpProtocol)
    (hc1 : p1.length < 2 ^ 32) (hc2 : p2.length < 2 ^ 32)
    (hp1 : ∀ p ∈ p1, p.to_bytes_extend.length < 2 ^ 32)
    (hp2 : ∀ p ∈ p2, p.to_bytes_extend.length < 2 ^ 32)
    (hser : wireFormatSpec p1 = wireFormatSpec p2) :
    (generate_name hash pkts).length = 16 ∧
    (∀ c ∈ generate_name hash pkts,
      (48 ≤ c.toNat ∧ c.toNat ≤ 57) ∨ (97 ≤ c.toNat ∧ c.toNat ≤ 102)) ∧
    generate_name hash p1 = generate_name hash p2 := by
  refine ⟨?_, ?_, ?_⟩
  · simp [generate_name]
  · intro c hc
    simp only [generate_name, List.mem_map, List.mem_range] at hc
    obtain ⟨i, _, hci⟩ := hc
    rw [← hci]
    exact hexDigitChar_spec _ (Nat.mod_lt _ (by norm_num))
  · rw [wireFormatSpec_inj p1 p2 hc1 hc2 hp1 hp2 hser]

/-- Witness for C9 at the S6 example input and the hash
`fun l => 3 * l.length + 11`. -/
theorem generate_name_spec_witness :
    (generate_name (fun l => 3 * l.length + 11) ftpExampleS6).length = 16 ∧
    (∀ c ∈ generate_name (fun l => 3 * l.length + 11) ftpExampleS6,
      (48 ≤ c.toNat ∧ c.toNat ≤ 57) ∨ (97 ≤ c.toNat ∧ c.toNat ≤ 102)) ∧
    generate_name (fun l => 3 * l.length + 11) ftpExampleS6 =
      generate_name (fun l => 3 * l.length + 11) ftpExampleS6 :=
  generate_name_spec (fun l => 3 * l.length + 11) ftpExampleS6 ftpExampleS6 ftpExampleS6
    (by decide) (by decide) (by decide) (by decide) rfl
